import Mathlib

set_option maxRecDepth 8000

/-- Three-channel color / 3D vector value, embedding gm::Vec3f from the source
(three float channels, modelled over the rationals). -/
structure Vec3f where
  x : ℚ
  y : ℚ
  z : ℚ
  deriving DecidableEq

/-- A ray, embedding gm::Ray: an origin point and a direction vector. -/
structure Ray where
  origin : Vec3f
  direction : Vec3f
  deriving DecidableEq

/-- A float interval, embedding gm::FloatRange: a minimum and a maximum bound. -/
structure FloatRange where
  min : ℚ
  max : ℚ
  deriving DecidableEq

/-- A surface material, embedding the raytrace::Material interface.
Scatter receives the incident ray together with the hit point and hit normal
(the fields of the hit record that the Lambert and Metal materials read) and
either produces an attenuation color and a scattered ray, or reports full
absorption (the C++ bool-with-out-params calling convention becomes Option).
The material function itself absorbs the random draws its C++ counterpart
makes, so quantifying over all materials covers every random outcome. -/
structure Material where
  Scatter : Ray → Vec3f → Vec3f → Option (Vec3f × Ray)

/-- The result of a successful intersection test, embedding raytrace::HitRecord:
hit parameter (magnitude), world-space point, outward normal and material. -/
structure HitRecord where
  m_magnitude : ℚ
  m_point : Vec3f
  m_normal : Vec3f
  m_material : Material

/-- A scene object, embedding the raytrace::SceneObject interface as realised by
raytrace::Sphere: a geometry described by the hit parameters (roots) it yields
for a given ray, the surface point and outward normal at a given parameter, and
the material attached to the object. -/
structure SceneObject where
  roots : Ray → List ℚ
  pointAt : Ray → ℚ → Vec3f
  normalAt : Ray → ℚ → Vec3f
  material : Material

/-- Smallest element of a list of candidate hit parameters lying strictly inside
the interval (lo, hi); none when no candidate qualifies. -/
def minRootIn (lo hi : ℚ) : List ℚ → Option ℚ
  | [] => none
  | t :: ts =>
    match minRootIn lo hi ts with
    | some b => if lo < t ∧ t < hi then some (min t b) else some b
    | none => if lo < t ∧ t < hi then some t else none

/-- The hit record an object produces at parameter t of a ray. -/
def mkHitRecord (o : SceneObject) (r : Ray) (t : ℚ) : HitRecord :=
  { m_magnitude := t
    m_point := o.pointAt r t
    m_normal := o.normalAt r t
    m_material := o.material }

/-- Modelled from the spec: SceneObject::Hit for the Sphere variant
(raytrace/sphere.h is not part of the extracted sources). Per spec section 4.1
the test selects the smallest root lying strictly within the query interval
(open on tMin to exclude degenerate zero-distance hits) and, on success,
populates the record with the root, the surface point, the outward normal and
the object's material; on failure the record is untouched (here: none). -/
def SceneObject.Hit (o : SceneObject) (r : Ray) (range : FloatRange) : Option HitRecord :=
  (minRootIn range.min range.max (o.roots r)).map (mkHitRecord o r)

/-- Largest finite float value, the initial nearest-hit magnitude in
ComputeRayColor (std::numeric_limits<float>::max() = 2^128 - 2^104, exact). -/
def floatMax : ℚ := 2 ^ 128 - 2 ^ 104

/-- One step of the intersection scan of ComputeRayColor (main.cpp lines 67-76):
query the object with the interval [0.001, nearest-so-far]; on a hit the nearest
magnitude shrinks to the reported magnitude and the record is overwritten. -/
def scanStep (r : Ray) (s : ℚ × Option HitRecord) (o : SceneObject) : ℚ × Option HitRecord :=
  match o.Hit r ⟨1/1000, s.1⟩ with
  | some h => (h.m_magnitude, some h)
  | none => s

/-- The full intersection scan of ComputeRayColor (main.cpp lines 62-76): fold
over the scene objects starting from nearest = floatMax and no record. -/
def hitScan (r : Ray) (objs : List SceneObject) : ℚ × Option HitRecord :=
  objs.foldl (scanStep r) (floatMax, none)

/-- Componentwise (vector) product of two colors, as formed by ComputeRayColor
when combining the attenuation with the descendent color (main.cpp 88-90). -/
def cProd (a b : Vec3f) : Vec3f :=
  ⟨a.x * b.x, a.y * b.y, a.z * b.z⟩

/-- Modelled from the spec: gm::LinearInterpolation, an external math utility
with standard lerp semantics, a + weight * (b - a) componentwise. -/
def LinearInterpolation (a b : Vec3f) (weight : ℚ) : Vec3f :=
  ⟨a.x + weight * (b.x - a.x), a.y + weight * (b.y - a.y), a.z + weight * (b.z - a.z)⟩

/-- The recursive ray-color integrator, embedding ComputeRayColor from
main.cpp lines 54-103 (bounce budget taken as a natural number; see
ComputeRayColorF for the int-typed budget of the C++ signature). -/
def ComputeRayColor : Ray → ℕ → List SceneObject → Vec3f
  | _, 0, _ => ⟨0, 0, 0⟩
  | i_ray, n + 1, i_sceneObjectPtrs =>
    match (hitScan i_ray i_sceneObjectPtrs).2 with
    | some record =>
      match record.m_material.Scatter i_ray record.m_point record.m_normal with
      | some (attenuation, scatteredRay) =>
        cProd attenuation (ComputeRayColor scatteredRay n i_sceneObjectPtrs)
      | none => ⟨0, 0, 0⟩
    | none =>
      LinearInterpolation ⟨1, 1, 1⟩ ⟨1/2, 7/10, 1⟩ (1/2 * i_ray.direction.y + 1)

/-- The integrator with the int-typed bounce budget of the C++ signature, made
total by an explicit fuel counting call depth: none means the recursion is
still running when the fuel (allowed call depth) runs out, so a function value
of none for every fuel is nontermination of the embedded C++ recursion. -/
def ComputeRayColorF : ℕ → Ray → ℤ → List SceneObject → Option Vec3f
  | 0, _, _, _ => none
  | fuel + 1, i_ray, n, i_sceneObjectPtrs =>
    if n = 0 then some ⟨0, 0, 0⟩
    else
      match (hitScan i_ray i_sceneObjectPtrs).2 with
      | some record =>
        match record.m_material.Scatter i_ray record.m_point record.m_normal with
        | some (attenuation, scatteredRay) =>
          (ComputeRayColorF fuel scatteredRay (n - 1) i_sceneObjectPtrs).map (cProd attenuation)
        | none => some ⟨0, 0, 0⟩
      | none =>
        some (LinearInterpolation ⟨1, 1, 1⟩ ⟨1/2, 7/10, 1⟩ (1/2 * i_ray.direction.y + 1))

/-- A color with every channel inside [0, 1]. -/
def inUnitCube (v : Vec3f) : Prop :=
  0 ≤ v.x ∧ v.x ≤ 1 ∧ 0 ≤ v.y ∧ v.y ≤ 1 ∧ 0 ≤ v.z ∧ v.z ≤ 1

/-- Componentwise order on colors. -/
def le3 (a b : Vec3f) : Prop :=
  a.x ≤ b.x ∧ a.y ≤ b.y ∧ a.z ≤ b.z

/-- Claim C1: for every scene and every ray, calling ComputeRayColor with a
bounce budget of exactly 0 returns black (0,0,0), regardless of the ray, the
scene contents, or any random state (random outcomes live inside the quantified
scene objects' material functions). -/
theorem computeRayColor_zero_bounces_black (ray : Ray) (objs : List SceneObject) :
    ComputeRayColor ray 0 objs = ⟨0, 0, 0⟩ := rfl

/-- Claim C2: when the nearest hit's material scatter succeeds, ComputeRayColor
at budget n+1 returns the componentwise product of the scatter's attenuation
with ComputeRayColor of the scattered ray at budget n (not a sum); and for any
attenuation and recursive result with all channels in [0,1], every channel of
the componentwise product is at most the corresponding channel of either
operand. -/
theorem computeRayColor_scatter_product (ray : Ray) (n : ℕ) (objs : List SceneObject)
    (record : HitRecord) (attenuation : Vec3f) (scatteredRay : Ray)
    (hscan : (hitScan ray objs).2 = some record)
    (hscat : record.m_material.Scatter ray record.m_point record.m_normal =
      some (attenuation, scatteredRay)) :
    ComputeRayColor ray (n + 1) objs = cProd attenuation (ComputeRayColor scatteredRay n objs) ∧
    ∀ a d : Vec3f, inUnitCube a → inUnitCube d → le3 (cProd a d) a ∧ le3 (cProd a d) d := by
  constructor
  · simp only [ComputeRayColor, hscan, hscat]
  · rintro a d ⟨hax0, hax1, hay0, hay1, haz0, haz1⟩ ⟨hdx0, hdx1, hdy0, hdy1, hdz0, hdz1⟩
    refine ⟨⟨?_, ?_, ?_⟩, ⟨?_, ?_, ?_⟩⟩ <;> simp only [cProd] <;> nlinarith

/-- A sample material for witnesses: scatters with attenuation (1/2,1/2,1/2)
into the fixed ray wRay2. -/
def wMat : Material :=
  ⟨fun _ _ _ => some (⟨1/2, 1/2, 1/2⟩, ⟨⟨0, 0, 0⟩, ⟨0, 1, 0⟩⟩)⟩

/-- A sample scene object for witnesses: always hit at parameter 1. -/
def wObj : SceneObject :=
  { roots := fun _ => [1]
    pointAt := fun _ _ => ⟨0, 0, 0⟩
    normalAt := fun _ _ => ⟨0, 0, 1⟩
    material := wMat }

/-- The ray cast into the witness scene. -/
def wRay : Ray := ⟨⟨0, 0, 0⟩, ⟨0, 0, -1⟩⟩

/-- The ray wMat scatters into. -/
def wRay2 : Ray := ⟨⟨0, 0, 0⟩, ⟨0, 1, 0⟩⟩

/-- The hit record the witness scan produces. -/
def wRec : HitRecord := ⟨1, ⟨0, 0, 0⟩, ⟨0, 0, 1⟩, wMat⟩

/-- Witness for claim C2 at a concrete scene whose single object is hit at
parameter 1 and scatters with attenuation (1/2,1/2,1/2). -/
theorem computeRayColor_scatter_product_witness :
    ComputeRayColor wRay 4 [wObj] = cProd ⟨1/2, 1/2, 1/2⟩ (ComputeRayColor wRay2 3 [wObj]) ∧
    le3 (cProd ⟨1/2, 1/2, 1/2⟩ ⟨1, 1, 1⟩) ⟨1/2, 1/2, 1/2⟩ ∧
    le3 (cProd ⟨1/2, 1/2, 1/2⟩ ⟨1, 1, 1⟩) ⟨1, 1, 1⟩ := by
  have h := computeRayColor_scatter_product wRay 3 [wObj] wRec ⟨1/2, 1/2, 1/2⟩ wRay2
    (by norm_num [hitScan, scanStep, SceneObject.Hit, minRootIn, mkHitRecord, wObj, wRay, wRec,
      floatMax])
    (by norm_num [wRec, wMat, wRay2])
  exact ⟨h.1, (h.2 ⟨1/2, 1/2, 1/2⟩ ⟨1, 1, 1⟩ (by norm_num [inUnitCube]) (by norm_num [inUnitCube])).1,
    (h.2 ⟨1/2, 1/2, 1/2⟩ ⟨1, 1, 1⟩ (by norm_num [inUnitCube]) (by norm_num [inUnitCube])).2⟩

/-- On a scan with no hit, ComputeRayColor at a positive budget returns the
background gradient blended with the unclamped weight 0.5 * direction.y + 1
computed from the ray's stored (not re-normalized) direction. -/
theorem computeRayColor_no_hit (ray : Ray) (n : ℕ) (objs : List SceneObject)
    (hscan : (hitScan ray objs).2 = none) :
    ComputeRayColor ray (n + 1) objs =
      LinearInterpolation ⟨1, 1, 1⟩ ⟨1/2, 7/10, 1⟩ (1/2 * ray.direction.y + 1) := by
  simp only [ComputeRayColor, hscan]

/-- Claim C3 counterexample: the ray with direction (0, 2, 0) against the empty
scene. Its normalized direction is (0, 1, 0), so the claim as stated predicts
the blend weight 0.5 * 1 + 1 = 1.5; the code instead uses the stored direction
component and blends with weight 0.5 * 2 + 1 = 2, a different color. -/
theorem computeRayColor_background_cex :
    ComputeRayColor ⟨⟨0, 0, 0⟩, ⟨0, 2, 0⟩⟩ 1 [] =
      LinearInterpolation ⟨1, 1, 1⟩ ⟨1/2, 7/10, 1⟩ 2 ∧
    ComputeRayColor ⟨⟨0, 0, 0⟩, ⟨0, 2, 0⟩⟩ 1 [] ≠
      LinearInterpolation ⟨1, 1, 1⟩ ⟨1/2, 7/10, 1⟩ (1/2 * 1 + 1) := by
  have h := computeRayColor_no_hit ⟨⟨0, 0, 0⟩, ⟨0, 2, 0⟩⟩ 0 [] rfl
  rw [h]
  constructor
  · norm_num [LinearInterpolation]
  · norm_num [LinearInterpolation]

/-- Claim C3 (amended): for every ray that hits no scene object and has a
positive bounce budget, ComputeRayColor returns the linear interpolation
between white (1,1,1) and sky-blue (0.5,0.7,1.0) at the unclamped blend weight
0.5 * direction.y + 1.0 computed from the ray's direction exactly as stored
(the renderer normalizes camera rays before calling the integrator, but
scattered rays are passed through unnormalized). -/
theorem computeRayColor_background_gradient (ray : Ray) (n : ℕ) (objs : List SceneObject)
    (hscan : (hitScan ray objs).2 = none) :
    ComputeRayColor ray (n + 1) objs =
      LinearInterpolation ⟨1, 1, 1⟩ ⟨1/2, 7/10, 1⟩ (1/2 * ray.direction.y + 1) :=
  computeRayColor_no_hit ray n objs hscan

/-- Witness for claim C3: the ray with direction (0, 1, 0) against the empty
scene yields the interpolated color at weight 1.5. -/
theorem computeRayColor_background_gradient_witness :
    ComputeRayColor ⟨⟨0, 0, 0⟩, ⟨0, 1, 0⟩⟩ 1 [] =
      LinearInterpolation ⟨1, 1, 1⟩ ⟨1/2, 7/10, 1⟩ (3/2) := by
  have h := computeRayColor_background_gradient ⟨⟨0, 0, 0⟩, ⟨0, 1, 0⟩⟩ 0 [] rfl
  rw [h]
  norm_num [LinearInterpolation]

/-- With enough fuel (strictly more than the non-negative bounce budget), the
int-budget integrator ComputeRayColorF terminates with the value of the
nat-budget integrator: recursion depth is bounded by the bounce budget. -/
theorem computeRayColorF_complete :
    ∀ (fuel : ℕ) (n : ℤ) (r : Ray) (objs : List SceneObject), 0 ≤ n → n < (fuel : ℤ) →
      ComputeRayColorF fuel r n objs = some (ComputeRayColor r n.toNat objs) := by
  intro fuel
  induction fuel with
  | zero => intro n r objs h0 hf; exfalso; omega
  | succ f ih =>
    intro n r objs h0 hf
    by_cases hn : n = 0
    · subst hn
      simp [ComputeRayColorF, ComputeRayColor]
    · have hnt : n.toNat = (n - 1).toNat + 1 := by omega
      rw [hnt]
      simp only [ComputeRayColorF, if_neg hn]
      cases hsc : (hitScan r objs).2 with
      | none => simp only [ComputeRayColor, hsc]
      | some record =>
        cases hmat : record.m_material.Scatter r record.m_point record.m_normal with
        | none => simp only [ComputeRayColor, hsc, hmat]
        | some pr =>
          obtain ⟨att, scat⟩ := pr
          simp only [ComputeRayColor, hsc, hmat]
          rw [ih (n - 1) scat objs (by omega) (by push_cast at hf ⊢; omega)]
          rfl

/-- Claim C5 (amended): for every ray, scene and non-negative bounce budget,
ComputeRayColor terminates with recursion depth bounded by the budget (any call
depth allowance exceeding the budget already yields the final color). -/
theorem computeRayColor_terminates_nonneg (r : Ray) (objs : List SceneObject) (n : ℤ)
    (hn : 0 ≤ n) (fuel : ℕ) (hfuel : n < (fuel : ℤ)) :
    ComputeRayColorF fuel r n objs = some (ComputeRayColor r n.toNat objs) :=
  computeRayColorF_complete fuel n r objs hn hfuel

/-- Witness for claim C5: budget 3 against the empty scene resolves within call
depth 5. -/
theorem computeRayColor_terminates_nonneg_witness :
    ComputeRayColorF 5 wRay 3 [] = some (ComputeRayColor wRay 3 []) := by
  have h := computeRayColor_terminates_nonneg wRay [] 3 (by norm_num) 5 (by norm_num)
  simpa using h

/-- The integrator diverges on this input: the embedded C++ recursion is still
running whatever call depth it is granted. -/
def divergesAt (r : Ray) (n : ℤ) (objs : List SceneObject) : Prop :=
  ∀ fuel : ℕ, ComputeRayColorF fuel r n objs = none

/-- The ray of the divergence counterexample. -/
def divRay : Ray := ⟨⟨0, 0, 0⟩, ⟨0, 0, -1⟩⟩

/-- A material that always scatters back along divRay with attenuation (1,1,1). -/
def divMat : Material := ⟨fun _ _ _ => some (⟨1, 1, 1⟩, divRay)⟩

/-- A scene object every ray hits at parameter 1, scattering via divMat. -/
def divObj : SceneObject :=
  { roots := fun _ => [1]
    pointAt := fun _ _ => ⟨0, 0, 0⟩
    normalAt := fun _ _ => ⟨0, 0, 1⟩
    material := divMat }

/-- The intersection scan of the divergence scene always reports the hit at
parameter 1. -/
theorem divScene_scan (r : Ray) :
    (hitScan r [divObj]).2 = some ⟨1, ⟨0, 0, 0⟩, ⟨0, 0, 1⟩, divMat⟩ := by
  norm_num [hitScan, List.foldl_cons, List.foldl_nil, scanStep, SceneObject.Hit, minRootIn,
    mkHitRecord, divObj, floatMax]

/-- At any negative bounce budget the zero-test guard never fires, so on the
always-hit always-scatter scene the recursion never returns. -/
theorem computeRayColorF_neg_diverges :
    ∀ (fuel : ℕ) (n : ℤ), n < 0 → ComputeRayColorF fuel divRay n [divObj] = none := by
  intro fuel
  induction fuel with
  | zero => intro n hn; rfl
  | succ f ih =>
    intro n hn
    have hn0 : ¬(n = 0) := by omega
    simp only [ComputeRayColorF, if_neg hn0, divScene_scan, divMat]
    rw [ih (n - 1) (by omega)]
    rfl

/-- Claim C5 counterexample: the bounce budget is an int in the source, and the
termination guard tests equality with 0 only; at the configured bounce limit -1
the integrator never terminates on a scene that always hits and scatters, so
termination does not hold for every configured bounce limit. -/
theorem computeRayColor_negative_budget_cex : divergesAt divRay (-1) [divObj] :=
  fun fuel => computeRayColorF_neg_diverges fuel (-1) (by norm_num)

/-- Claim C6: when the nearest hit's material reports full absorption,
ComputeRayColor returns black immediately; the fuel-indexed form already
returns black at call depth 1, so no recursive call is involved; and (third
conjunct) the integrator resolves to a definite color value on every path. -/
theorem computeRayColor_absorption (ray : Ray) (objs : List SceneObject) (n : ℕ)
    (record : HitRecord)
    (hscan : (hitScan ray objs).2 = some record)
    (habs : record.m_material.Scatter ray record.m_point record.m_normal = none) :
    ComputeRayColor ray (n + 1) objs = ⟨0, 0, 0⟩ ∧
    ComputeRayColorF 1 ray ((n : ℤ) + 1) objs = some ⟨0, 0, 0⟩ ∧
    ComputeRayColorF (n + 2) ray ((n : ℤ) + 1) objs = some (ComputeRayColor ray (n + 1) objs) := by
  refine ⟨?_, ?_, ?_⟩
  · simp only [ComputeRayColor, hscan, habs]
  · have hne : ((n : ℤ) + 1) ≠ 0 := by omega
    simp only [ComputeRayColorF, if_neg hne, hscan, habs]
  · have h := computeRayColorF_complete (n + 2) ((n : ℤ) + 1) ray objs (by omega)
      (by push_cast; omega)
    have ht : ((n : ℤ) + 1).toNat = n + 1 := by omega
    rw [h, ht]

/-- A fully absorbing material. -/
def aMat : Material := ⟨fun _ _ _ => none⟩

/-- A scene object every ray hits at parameter 1, fully absorbing. -/
def aObj : SceneObject :=
  { roots := fun _ => [1]
    pointAt := fun _ _ => ⟨0, 0, 0⟩
    normalAt := fun _ _ => ⟨0, 0, 1⟩
    material := aMat }

/-- The hit record of the absorbing scene. -/
def aRec : HitRecord := ⟨1, ⟨0, 0, 0⟩, ⟨0, 0, 1⟩, aMat⟩

/-- Witness for claim C6 at a concrete absorbing scene. -/
theorem computeRayColor_absorption_witness :
    ComputeRayColor wRay 2 [aObj] = ⟨0, 0, 0⟩ ∧
    ComputeRayColorF 1 wRay 2 [aObj] = some ⟨0, 0, 0⟩ := by
  have h := computeRayColor_absorption wRay [aObj] 1 aRec
    (by norm_num [hitScan, List.foldl_cons, List.foldl_nil, scanStep, SceneObject.Hit, minRootIn,
      mkHitRecord, aObj, floatMax, aRec])
    (by norm_num [aRec, aMat])
  refine ⟨h.1, ?_⟩
  have h2 := h.2.1
  norm_num at h2
  exact h2

/-- Characterization of a failing minRootIn query: no candidate root lies
strictly inside the interval. -/
theorem minRootIn_none_iff (lo hi : ℚ) (R : List ℚ) :
    minRootIn lo hi R = none ↔ ∀ s ∈ R, ¬(lo < s ∧ s < hi) := by
  induction R with
  | nil => simp [minRootIn]
  | cons t ts ih =>
    cases h : minRootIn lo hi ts with
    | some b =>
      simp only [minRootIn, h]
      constructor
      · intro hc
        exfalso
        split_ifs at hc
      · intro hall
        have h0 : minRootIn lo hi ts = none :=
          ih.mpr (fun s hs => hall s (List.mem_cons_of_mem t hs))
        rw [h0] at h
        exact Option.noConfusion h
    | none =>
      have hts : ∀ s ∈ ts, ¬(lo < s ∧ s < hi) := ih.mp h
      simp only [minRootIn, h]
      constructor
      · intro hc
        split_ifs at hc with hcond
        intro s hs
        rcases List.mem_cons.mp hs with rfl | hs2
        · exact hcond
        · exact hts s hs2
      · intro hall
        rw [if_neg (hall t (List.mem_cons_self t ts))]

/-- Characterization of a successful minRootIn query: the result is a candidate
root strictly inside the interval, minimal among all such candidates. -/
theorem minRootIn_some_iff (lo hi : ℚ) (R : List ℚ) :
    ∀ t : ℚ, minRootIn lo hi R = some t ↔
      t ∈ R ∧ lo < t ∧ t < hi ∧ ∀ s ∈ R, lo < s → s < hi → t ≤ s := by
  induction R with
  | nil => intro t; simp [minRootIn]
  | cons u ts ih =>
    intro t
    cases h : minRootIn lo hi ts with
    | some b =>
      obtain ⟨hbmem, hblo, hbhi, hbmin⟩ := (ih b).mp h
      simp only [minRootIn, h]
      by_cases hc : lo < u ∧ u < hi
      · rw [if_pos hc]
        constructor
        · intro hsome
          have ht : min u b = t := Option.some.inj hsome
          subst ht
          refine ⟨?_, lt_min hc.1 hblo, lt_of_le_of_lt (min_le_left u b) hc.2, ?_⟩
          · rcases min_choice u b with hm | hm <;> rw [hm]
            · exact List.mem_cons_self u ts
            · exact List.mem_cons_of_mem u hbmem
          · intro s hs hslo hshi
            rcases List.mem_cons.mp hs with rfl | hs2
            · exact min_le_left _ _
            · exact le_trans (min_le_right u b) (hbmin s hs2 hslo hshi)
        · rintro ⟨hmem, hlt, hth, hmin⟩
          have h1 : t ≤ min u b :=
            le_min (hmin u (List.mem_cons_self u ts) hc.1 hc.2)
              (hmin b (List.mem_cons_of_mem u hbmem) hblo hbhi)
          have h2 : min u b ≤ t := by
            rcases List.mem_cons.mp hmem with rfl | hs2
            · exact min_le_left _ _
            · exact le_trans (min_le_right u b) (hbmin t hs2 hlt hth)
          rw [le_antisymm h2 h1]
      · rw [if_neg hc]
        constructor
        · intro hsome
          have ht : b = t := Option.some.inj hsome
          subst ht
          refine ⟨List.mem_cons_of_mem u hbmem, hblo, hbhi, ?_⟩
          intro s hs hslo hshi
          rcases List.mem_cons.mp hs with rfl | hs2
          · exact absurd ⟨hslo, hshi⟩ hc
          · exact hbmin s hs2 hslo hshi
        · rintro ⟨hmem, hlt, hth, hmin⟩
          have h2 : t ∈ ts := by
            rcases List.mem_cons.mp hmem with rfl | hs2
            · exact absurd ⟨hlt, hth⟩ hc
            · exact hs2
          have h3 : b ≤ t := hbmin t h2 hlt hth
          have h4 : t ≤ b := hmin b (List.mem_cons_of_mem u hbmem) hblo hbhi
          rw [le_antisymm h3 h4]
    | none =>
      have hts : ∀ s ∈ ts, ¬(lo < s ∧ s < hi) := (minRootIn_none_iff lo hi ts).mp h
      simp only [minRootIn, h]
      by_cases hc : lo < u ∧ u < hi
      · rw [if_pos hc]
        constructor
        · intro hsome
          have ht : u = t := Option.some.inj hsome
          subst ht
          refine ⟨List.mem_cons_self _ _, hc.1, hc.2, ?_⟩
          intro s hs hslo hshi
          rcases List.mem_cons.mp hs with rfl | hs2
          · exact le_refl _
          · exact absurd ⟨hslo, hshi⟩ (hts s hs2)
        · rintro ⟨hmem, hlt, hth, hmin⟩
          rcases List.mem_cons.mp hmem with rfl | hs2
          · rfl
          · exact absurd ⟨hlt, hth⟩ (hts t hs2)
      · rw [if_neg hc]
        constructor
        · intro hsome
          exact Option.noConfusion hsome
        · rintro ⟨hmem, hlt, hth, hmin⟩
          exfalso
          rcases List.mem_cons.mp hmem with rfl | hs2
          · exact hc ⟨hlt, hth⟩
          · exact hts t hs2 ⟨hlt, hth⟩

/-- Shrinking the upper bound of a minRootIn query keeps the same answer while
it stays above the previous minimum, and otherwise empties the query. -/
theorem minRootIn_restrict_some (lo u U : ℚ) (R : List ℚ) (b : ℚ) (hu : u ≤ U)
    (h : minRootIn lo U R = some b) :
    minRootIn lo u R = if b < u then some b else none := by
  obtain ⟨hmem, hlo, hhi, hmin⟩ := (minRootIn_some_iff lo U R b).mp h
  by_cases hbu : b < u
  · rw [if_pos hbu]
    exact (minRootIn_some_iff lo u R b).mpr
      ⟨hmem, hlo, hbu, fun s hs h1 h2 => hmin s hs h1 (lt_of_lt_of_le h2 hu)⟩
  · rw [if_neg hbu]
    refine (minRootIn_none_iff lo u R).mpr ?_
    rintro s hs ⟨h1, h2⟩
    exact hbu (lt_of_le_of_lt (hmin s hs h1 (lt_of_lt_of_le h2 hu)) h2)

/-- A query that fails on a wide interval also fails on any narrower one. -/
theorem minRootIn_restrict_none (lo u U : ℚ) (R : List ℚ) (hu : u ≤ U)
    (h : minRootIn lo U R = none) :
    minRootIn lo u R = none := by
  have hall := (minRootIn_none_iff lo U R).mp h
  refine (minRootIn_none_iff lo u R).mpr ?_
  rintro s hs ⟨h1, h2⟩
  exact hall s hs ⟨h1, lt_of_lt_of_le h2 hu⟩

/-- The best (nearest) admissible hit parameter of an object for a ray over the
widest interval the scan ever queries, (0.001, floatMax). -/
def bestRoot (r : Ray) (o : SceneObject) : Option ℚ :=
  minRootIn (1/1000) floatMax (o.roots r)

/-- Two scene objects have no tie for a ray: they never report the same best
hit parameter. -/
def noTie (r : Ray) (o₁ o₂ : SceneObject) : Prop :=
  ∀ t, ¬(bestRoot r o₁ = some t ∧ bestRoot r o₂ = some t)

/-- noTie is a symmetric relation. -/
theorem noTie_symm (r : Ray) : Symmetric (noTie r) := by
  rintro o₁ o₂ h t ⟨h2, h1⟩
  exact h t ⟨h1, h2⟩

/-- A scan step against an object with no admissible root leaves the state. -/
theorem scanStep_none (r : Ray) (o : SceneObject) (z : ℚ × Option HitRecord)
    (hz : z.1 ≤ floatMax) (hb : bestRoot r o = none) :
    scanStep r z o = z := by
  simp only [bestRoot] at hb
  have hh : o.Hit r ⟨1/1000, z.1⟩ = none := by
    simp only [SceneObject.Hit]
    rw [minRootIn_restrict_none (1/1000) z.1 floatMax (o.roots r) hz hb]
    rfl
  simp only [scanStep, hh]

/-- A scan step against an object whose best root beats the nearest-so-far
updates the state to that root and its record. -/
theorem scanStep_some_lt (r : Ray) (o : SceneObject) (z : ℚ × Option HitRecord) (b : ℚ)
    (hz : z.1 ≤ floatMax) (hb : bestRoot r o = some b) (hlt : b < z.1) :
    scanStep r z o = (b, some (mkHitRecord o r b)) := by
  simp only [bestRoot] at hb
  have hh : o.Hit r ⟨1/1000, z.1⟩ = some (mkHitRecord o r b) := by
    simp only [SceneObject.Hit]
    rw [minRootIn_restrict_some (1/1000) z.1 floatMax (o.roots r) b hz hb, if_pos hlt]
    rfl
  simp only [scanStep, hh]
  rfl

/-- A scan step against an object whose best root does not beat the
nearest-so-far leaves the state. -/
theorem scanStep_some_ge (r : Ray) (o : SceneObject) (z : ℚ × Option HitRecord) (b : ℚ)
    (hz : z.1 ≤ floatMax) (hb : bestRoot r o = some b) (hge : ¬ b < z.1) :
    scanStep r z o = z := by
  simp only [bestRoot] at hb
  have hh : o.Hit r ⟨1/1000, z.1⟩ = none := by
    simp only [SceneObject.Hit]
    rw [minRootIn_restrict_some (1/1000) z.1 floatMax (o.roots r) b hz hb, if_neg hge]
    rfl
  simp only [scanStep, hh]

/-- A scan step keeps the nearest-so-far magnitude at or below floatMax. -/
theorem scanStep_fst_le (r : Ray) (o : SceneObject) (z : ℚ × Option HitRecord)
    (hz : z.1 ≤ floatMax) : (scanStep r z o).1 ≤ floatMax := by
  cases hb : bestRoot r o with
  | none => rw [scanStep_none r o z hz hb]; exact hz
  | some b =>
    by_cases hlt : b < z.1
    · rw [scanStep_some_lt r o z b hz hb hlt]
      exact le_of_lt (lt_of_lt_of_le hlt hz)
    · rw [scanStep_some_ge r o z b hz hb hlt]; exact hz

/-- Two consecutive scan steps against tie-free objects commute. -/
theorem scanStep_comm (r : Ray) (o₁ o₂ : SceneObject) (z : ℚ × Option HitRecord)
    (hz : z.1 ≤ floatMax) (hnt : noTie r o₁ o₂) :
    scanStep r (scanStep r z o₁) o₂ = scanStep r (scanStep r z o₂) o₁ := by
  cases hb₁ : bestRoot r o₁ with
  | none =>
    rw [scanStep_none r o₁ z hz hb₁,
      scanStep_none r o₁ (scanStep r z o₂) (scanStep_fst_le r o₂ z hz) hb₁]
  | some b₁ =>
    cases hb₂ : bestRoot r o₂ with
    | none =>
      rw [scanStep_none r o₂ z hz hb₂,
        scanStep_none r o₂ (scanStep r z o₁) (scanStep_fst_le r o₁ z hz) hb₂]
    | some b₂ =>
      have hne : b₁ ≠ b₂ := fun he => hnt b₂ ⟨he ▸ hb₁, hb₂⟩
      have hb₁f : b₁ < floatMax := ((minRootIn_some_iff _ _ _ b₁).mp hb₁).2.2.1
      have hb₂f : b₂ < floatMax := ((minRootIn_some_iff _ _ _ b₂).mp hb₂).2.2.1
      by_cases h1 : b₁ < z.1
      · by_cases h2 : b₂ < z.1
        · rcases lt_or_gt_of_ne hne with hlt | hgt
          · rw [scanStep_some_lt r o₁ z b₁ hz hb₁ h1,
              scanStep_some_ge r o₂ (b₁, some (mkHitRecord o₁ r b₁)) b₂ (le_of_lt hb₁f) hb₂
                (by intro hc; exact absurd hlt (not_lt_of_gt hc)),
              scanStep_some_lt r o₂ z b₂ hz hb₂ h2,
              scanStep_some_lt r o₁ (b₂, some (mkHitRecord o₂ r b₂)) b₁ (le_of_lt hb₂f) hb₁ hlt]
          · rw [scanStep_some_lt r o₁ z b₁ hz hb₁ h1,
              scanStep_some_lt r o₂ (b₁, some (mkHitRecord o₁ r b₁)) b₂ (le_of_lt hb₁f) hb₂ hgt,
              scanStep_some_lt r o₂ z b₂ hz hb₂ h2,
              scanStep_some_ge r o₁ (b₂, some (mkHitRecord o₂ r b₂)) b₁ (le_of_lt hb₂f) hb₁
                (by intro hc; exact absurd hgt (not_lt_of_gt hc))]
        · rw [scanStep_some_lt r o₁ z b₁ hz hb₁ h1,
            scanStep_some_ge r o₂ (b₁, some (mkHitRecord o₁ r b₁)) b₂ (le_of_lt hb₁f) hb₂
              (by intro hc; exact h2 (lt_trans hc h1)),
            scanStep_some_ge r o₂ z b₂ hz hb₂ h2,
            scanStep_some_lt r o₁ z b₁ hz hb₁ h1]
      · by_cases h2 : b₂ < z.1
        · rw [scanStep_some_ge r o₁ z b₁ hz hb₁ h1,
            scanStep_some_lt r o₂ z b₂ hz hb₂ h2,
            scanStep_some_ge r o₁ (b₂, some (mkHitRecord o₂ r b₂)) b₁ (le_of_lt hb₂f) hb₁
              (by intro hc; exact h1 (lt_trans hc h2))]
        · rw [scanStep_some_ge r o₁ z b₁ hz hb₁ h1,
            scanStep_some_ge r o₂ z b₂ hz hb₂ h2,
            scanStep_some_ge r o₁ z b₁ hz hb₁ h1]

/-- The intersection scan reaches the same final state on any permutation of a
tie-free scene list. -/
theorem foldl_scanStep_perm (r : Ray) {l l2 : List SceneObject} (hp : l.Perm l2) :
    ∀ (hpair : l.Pairwise (noTie r)) (z : ℚ × Option HitRecord), z.1 ≤ floatMax →
      l.foldl (scanStep r) z = l2.foldl (scanStep r) z := by
  induction hp with
  | nil => intro _ z _; rfl
  | cons x hp ih =>
    intro hpair z hz
    simp only [List.foldl_cons]
    exact ih (List.pairwise_cons.mp hpair).2 _ (scanStep_fst_le r x z hz)
  | swap x y l =>
    intro hpair z hz
    simp only [List.foldl_cons]
    have hxy : noTie r y x :=
      (List.pairwise_cons.mp hpair).1 x (List.mem_cons_self x _)
    rw [scanStep_comm r y x z hz hxy]
  | trans hp₁ hp₂ ih₁ ih₂ =>
    intro hpair z hz
    rw [ih₁ hpair z hz, ih₂ ((hp₁.pairwise_iff (fun hxy => noTie_symm r hxy)).mp hpair) z hz]

/-- The trace of hit parameters reported along the scan of a scene list,
starting from a given nearest-so-far magnitude. -/
def reportedHits (r : Ray) : List SceneObject → ℚ → List ℚ
  | [], _ => []
  | o :: rest, u =>
    match o.Hit r ⟨1/1000, u⟩ with
    | some h => h.m_magnitude :: reportedHits r rest h.m_magnitude
    | none => reportedHits r rest u

/-- A successful Hit reports a magnitude strictly inside the query interval. -/
theorem Hit_some_bounds (o : SceneObject) (r : Ray) (rng : FloatRange) (h : HitRecord)
    (hh : o.Hit r rng = some h) : rng.min < h.m_magnitude ∧ h.m_magnitude < rng.max := by
  simp only [SceneObject.Hit] at hh
  cases hm : minRootIn rng.min rng.max (o.roots r) with
  | none => rw [hm] at hh; exact Option.noConfusion hh
  | some t =>
    rw [hm] at hh
    obtain ⟨_, hlo, hhi, _⟩ := (minRootIn_some_iff rng.min rng.max (o.roots r) t).mp hm
    have he : mkHitRecord o r t = h := Option.some.inj hh
    subst he
    exact ⟨hlo, hhi⟩

/-- The nearest-so-far magnitude after scanning a list equals the minimum of
the initial magnitude and all hit parameters reported along the scan. -/
theorem foldl_scanStep_fst (r : Ray) :
    ∀ (l : List SceneObject) (z : ℚ × Option HitRecord),
      (l.foldl (scanStep r) z).1 = (reportedHits r l z.1).foldl min z.1 := by
  intro l
  induction l with
  | nil => intro z; rfl
  | cons o rest ih =>
    intro z
    cases hh : o.Hit r ⟨1/1000, z.1⟩ with
    | none =>
      simp only [List.foldl_cons, reportedHits, hh, scanStep]
      exact ih z
    | some h =>
      have hlt : h.m_magnitude < z.1 :=
        (Hit_some_bounds o r ⟨1/1000, z.1⟩ h hh).2
      simp only [List.foldl_cons, reportedHits, hh, scanStep]
      rw [ih (h.m_magnitude, some h)]
      rw [min_eq_right (le_of_lt hlt)]

/-- ComputeRayColor is unchanged by permuting a tie-free scene list: the scan
state agrees at every bounce, hence so do all scattered colors. -/
theorem computeRayColor_perm_aux (l l2 : List SceneObject) (hp : l.Perm l2)
    (hpair : ∀ r : Ray, l.Pairwise (noTie r)) :
    ∀ (n : ℕ) (r : Ray), ComputeRayColor r n l = ComputeRayColor r n l2 := by
  intro n
  induction n with
  | zero => intro r; rfl
  | succ n ih =>
    intro r
    have hscan : hitScan r l = hitScan r l2 :=
      foldl_scanStep_perm r hp (hpair r) (floatMax, none) (le_refl floatMax)
    cases hsc : (hitScan r l2).2 with
    | none =>
      have hl : (hitScan r l).2 = none := by rw [hscan, hsc]
      simp only [ComputeRayColor, hl, hsc]
    | some record =>
      have hl : (hitScan r l).2 = some record := by rw [hscan, hsc]
      cases hmat : record.m_material.Scatter r record.m_point record.m_normal with
      | none => simp only [ComputeRayColor, hl, hsc, hmat]
      | some pr =>
        obtain ⟨att, scat⟩ := pr
        simp only [ComputeRayColor, hl, hsc, hmat]
        rw [ih scat]

/-- On a successful scan whose nearest material scatters, ComputeRayColor at a
positive budget is the attenuated descendent color. -/
theorem computeRayColor_hit_scatter (ray : Ray) (n : ℕ) (objs : List SceneObject)
    (record : HitRecord) (attenuation : Vec3f) (scatteredRay : Ray)
    (hscan : (hitScan ray objs).2 = some record)
    (hscat : record.m_material.Scatter ray record.m_point record.m_normal =
      some (attenuation, scatteredRay)) :
    ComputeRayColor ray (n + 1) objs =
      cProd attenuation (ComputeRayColor scatteredRay n objs) := by
  simp only [ComputeRayColor, hscan, hscat]

/-- On a successful scan whose nearest material absorbs, ComputeRayColor at a
positive budget is black. -/
theorem computeRayColor_hit_absorb (ray : Ray) (n : ℕ) (objs : List SceneObject)
    (record : HitRecord)
    (hscan : (hitScan ray objs).2 = some record)
    (habs : record.m_material.Scatter ray record.m_point record.m_normal = none) :
    ComputeRayColor ray (n + 1) objs = ⟨0, 0, 0⟩ := by
  simp only [ComputeRayColor, hscan, habs]

/-- Claim C4 (amended): during the intersection scan every object's Hit test is
invoked with the interval [0.001, nearest-so-far] where the nearest-so-far is
the scan state after the preceding prefix (conjunct 1, phrased as the scan
decomposition at an arbitrary list position); after any prefix the tracked
nearest-hit magnitude equals the smallest hit parameter reported so far,
starting from floatMax (conjunct 2); and the returned color is the same for
every permutation of the scene list provided no two objects report the same
best hit parameter for any ray (conjunct 3; with ties the scan order decides
which object's material is kept, see the counterexample). -/
theorem hitScan_nearest_invariants (r : Ray) (l : List SceneObject) :
    (∀ l₁ o l₂, l = l₁ ++ o :: l₂ →
      (∀ h : HitRecord, o.Hit r ⟨1/1000, (hitScan r l₁).1⟩ = some h →
        hitScan r l = l₂.foldl (scanStep r) (h.m_magnitude, some h)) ∧
      (o.Hit r ⟨1/1000, (hitScan r l₁).1⟩ = none →
        hitScan r l = l₂.foldl (scanStep r) (hitScan r l₁))) ∧
    ((hitScan r l).1 = (reportedHits r l floatMax).foldl min floatMax) ∧
    (∀ l2, l.Perm l2 → (∀ ray : Ray, l.Pairwise (noTie ray)) →
      ∀ (n : ℕ) (ray : Ray), ComputeRayColor ray n l = ComputeRayColor ray n l2) := by
  refine ⟨?_, ?_, ?_⟩
  · rintro l₁ o l₂ rfl
    constructor
    · intro h hh
      simp only [hitScan] at hh ⊢
      simp only [List.foldl_append, List.foldl_cons]
      rw [show scanStep r (List.foldl (scanStep r) (floatMax, none) l₁) o =
        (h.m_magnitude, some h) from by simp only [scanStep, hh]]
    · intro hh
      simp only [hitScan] at hh ⊢
      simp only [List.foldl_append, List.foldl_cons]
      rw [show scanStep r (List.foldl (scanStep r) (floatMax, none) l₁) o =
        List.foldl (scanStep r) (floatMax, none) l₁ from by simp only [scanStep, hh]]
  · exact foldl_scanStep_fst r l (floatMax, none)
  · intro l2 hp hpair n ray
    exact computeRayColor_perm_aux l l2 hp hpair n ray

/-- The escape ray of the tie counterexample: origin off the gate plane, so it
misses both objects, and direction (0,1,0). -/
def tieEscapeRay : Ray := ⟨⟨1, 0, 0⟩, ⟨0, 1, 0⟩⟩

/-- A material that scatters into tieEscapeRay with attenuation (1,1,1). -/
def tieMatB : Material := ⟨fun _ _ _ => some (⟨1, 1, 1⟩, tieEscapeRay)⟩

/-- Tie object A: hit at parameter 1 by rays with origin x = 0, fully absorbing. -/
def tieObjA : SceneObject :=
  { roots := fun r => if r.origin.x = 0 then [1] else []
    pointAt := fun _ _ => ⟨0, 0, 0⟩
    normalAt := fun _ _ => ⟨0, 0, 1⟩
    material := aMat }

/-- Tie object B: hit at parameter 1 by rays with origin x = 0, scattering. -/
def tieObjB : SceneObject :=
  { roots := fun r => if r.origin.x = 0 then [1] else []
    pointAt := fun _ _ => ⟨0, 0, 0⟩
    normalAt := fun _ _ => ⟨0, 0, 1⟩
    material := tieMatB }

/-- The primary ray of the tie counterexample, with origin x = 0. -/
def tieRay : Ray := ⟨⟨0, 0, 0⟩, ⟨0, 0, -1⟩⟩

/-- Claim C4 counterexample: two objects whose Hit tests both report their
nearest in-range root, which is the parameter 1 for the primary ray in either
case. Scanning [A, B] keeps absorbing A's record (B's tie is culled by the
shrunken upper bound), while scanning [B, A] keeps scattering B's record, and
the two orders return different colors: the permuted scene changes the result. -/
theorem hitScan_permutation_cex :
    ComputeRayColor tieRay 2 [tieObjA, tieObjB] ≠ ComputeRayColor tieRay 2 [tieObjB, tieObjA] := by
  have hA : (hitScan tieRay [tieObjA, tieObjB]).2 = some ⟨1, ⟨0, 0, 0⟩, ⟨0, 0, 1⟩, aMat⟩ := by
    norm_num [hitScan, List.foldl_cons, List.foldl_nil, scanStep, SceneObject.Hit, minRootIn,
      mkHitRecord, tieObjA, tieObjB, tieRay, floatMax]
  have hB : (hitScan tieRay [tieObjB, tieObjA]).2 = some ⟨1, ⟨0, 0, 0⟩, ⟨0, 0, 1⟩, tieMatB⟩ := by
    norm_num [hitScan, List.foldl_cons, List.foldl_nil, scanStep, SceneObject.Hit, minRootIn,
      mkHitRecord, tieObjA, tieObjB, tieRay, floatMax]
  have hEsc : (hitScan tieEscapeRay [tieObjB, tieObjA]).2 = none := by
    norm_num [hitScan, List.foldl_cons, List.foldl_nil, scanStep, SceneObject.Hit, minRootIn,
      mkHitRecord, tieObjA, tieObjB, tieEscapeRay, floatMax]
  have h2 : (2 : ℕ) = 1 + 1 := rfl
  have h1 : (1 : ℕ) = 0 + 1 := rfl
  rw [h2]
  rw [computeRayColor_hit_absorb tieRay 1 [tieObjA, tieObjB] ⟨1, ⟨0, 0, 0⟩, ⟨0, 0, 1⟩, aMat⟩ hA
    (by norm_num [aMat])]
  rw [computeRayColor_hit_scatter tieRay 1 [tieObjB, tieObjA] ⟨1, ⟨0, 0, 0⟩, ⟨0, 0, 1⟩, tieMatB⟩
    ⟨1, 1, 1⟩ tieEscapeRay hB (by norm_num [tieMatB])]
  rw [h1, computeRayColor_no_hit tieEscapeRay 0 [tieObjB, tieObjA] hEsc]
  norm_num [cProd, LinearInterpolation, tieEscapeRay]

/-- A scene object hit at parameter 2 by every ray, fully absorbing; its best
root differs from wObj's for every ray, so the pair is tie-free. -/
def pObjB : SceneObject :=
  { roots := fun _ => [2]
    pointAt := fun _ _ => ⟨0, 0, 0⟩
    normalAt := fun _ _ => ⟨0, 0, 1⟩
    material := aMat }

/-- Witness for claim C4 on the tie-free two-object scene [wObj, pObjB]. -/
theorem hitScan_nearest_invariants_witness :
    hitScan wRay [wObj, pObjB] = List.foldl (scanStep wRay) (hitScan wRay [wObj]) [] ∧
    (hitScan wRay [wObj, pObjB]).1 = (reportedHits wRay [wObj, pObjB] floatMax).foldl min floatMax ∧
    ComputeRayColor wRay 2 [wObj, pObjB] = ComputeRayColor wRay 2 [pObjB, wObj] := by
  have h := hitScan_nearest_invariants wRay [wObj, pObjB]
  have hpair : ∀ ray : Ray, List.Pairwise (noTie ray) [wObj, pObjB] := by
    intro ray
    refine List.pairwise_cons.mpr ⟨?_, List.pairwise_singleton _ _⟩
    intro o ho
    have ho2 : o = pObjB := by simpa using ho
    subst ho2
    rintro t ⟨h1, h2⟩
    have e1 : bestRoot ray wObj = some 1 := by
      norm_num [bestRoot, wObj, minRootIn, floatMax]
    have e2 : bestRoot ray pObjB = some 2 := by
      norm_num [bestRoot, pObjB, minRootIn, floatMax]
    rw [e1] at h1
    rw [e2] at h2
    have ht1 : (1 : ℚ) = t := Option.some.inj h1
    have ht2 : (2 : ℚ) = t := Option.some.inj h2
    rw [← ht1] at ht2
    norm_num at ht2
  refine ⟨?_, h.2.1, ?_⟩
  · refine (h.1 [wObj] pObjB [] rfl).2 ?_
    norm_num [hitScan, List.foldl_cons, List.foldl_nil, scanStep, SceneObject.Hit, minRootIn,
      mkHitRecord, wObj, pObjB, floatMax]
  · exact h.2.2 [pObjB, wObj] (List.Perm.swap pObjB wObj []) hpair 2 wRay

/-- Componentwise vector addition (gm::Vec3f operator+=). -/
def addV (a b : Vec3f) : Vec3f :=
  ⟨a.x + b.x, a.y + b.y, a.z + b.z⟩

/-- Modelled from the spec: gm::Clamp, an external math utility clamping each
channel of a vector into a range. -/
def Clamp (v : Vec3f) (r : FloatRange) : Vec3f :=
  ⟨min (max v.x r.min) r.max, min (max v.y r.min) r.max, min (max v.z r.min) r.max⟩

/-- Normalized float range between 0 and 1 (main.cpp line 40). -/
def c_normalizedRange : FloatRange := ⟨0, 1⟩

/-- Modelled from the spec: the raytrace::Camera interface of section 6 — an
origin and the three viewport vectors mapping normalized (u,v) coordinates to
the image plane (raytrace/camera.h is not part of the extracted sources). -/
structure Camera where
  origin : Vec3f
  viewportBottomLeft : Vec3f
  viewportHorizontal : Vec3f
  viewportVertical : Vec3f

/-- Scalar multiple of a vector. -/
def scaleV (s : ℚ) (v : Vec3f) : Vec3f :=
  ⟨s * v.x, s * v.y, s * v.z⟩

/-- Componentwise vector subtraction. -/
def subV (a b : Vec3f) : Vec3f :=
  ⟨a.x - b.x, a.y - b.y, a.z - b.z⟩

/-- The camera ray direction of main.cpp lines 182-187: bottom-left plus the
horizontal and vertical offsets, minus the camera origin. -/
def cameraRayDirection (cam : Camera) (u v : ℚ) : Vec3f :=
  subV (addV (addV cam.viewportBottomLeft (scaleV u cam.viewportHorizontal))
    (scaleV v cam.viewportVertical)) cam.origin

/-- The loop body of the per-pixel sampling loop (main.cpp 176-194): jitter the
pixel coordinate by the sample's random offsets in both axes, map to normalized
viewport coordinates, build the camera ray, normalize its direction (the
external gm::Normalize passed as normalizeFn), and run the integrator. The
random stream randFn stands for the process-wide gm::RandomNumber draws. -/
def samplePixelColor (cam : Camera) ( normalizeFn : Vec3f → Vec3f) (randFn : ℕ → ℚ × ℚ)
    (imageWidth imageHeight : ℚ) (rayBounceLimit : ℕ) (objs : List SceneObject)
    (px py : ℤ) (sampleIndex : ℕ) : Vec3f :=
  let u := ((px : ℚ) + (randFn sampleIndex).1) / imageWidth
  let v := ((py : ℚ) + (randFn sampleIndex).2) / imageHeight
  let ray : Ray := ⟨cam.origin, normalizeFn (cameraRayDirection cam u v)⟩
  ComputeRayColor ray rayBounceLimit objs

/-- The per-pixel pipeline of main.cpp 172-208: accumulate the sample colors
over samplesPerPixel samples, divide by the sample count, gamma-correct each
channel with the external square root sqrtFn, and clamp to [0,1]. -/
def renderPixel (cam : Camera) ( normalizeFn : Vec3f → Vec3f) (sqrtFn : ℚ → ℚ)
    (randFn : ℕ → ℚ × ℚ) (imageWidth imageHeight : ℚ)
    (samplesPerPixel rayBounceLimit : ℕ) (objs : List SceneObject) (px py : ℤ) : Vec3f :=
  let pixelColor := (List.range samplesPerPixel).foldl
    (fun acc sampleIndex =>
      addV acc (samplePixelColor cam normalizeFn randFn imageWidth imageHeight rayBounceLimit
        objs px py sampleIndex))
    ⟨0, 0, 0⟩
  let averaged : Vec3f := ⟨pixelColor.x / (samplesPerPixel : ℚ),
    pixelColor.y / (samplesPerPixel : ℚ), pixelColor.z / (samplesPerPixel : ℚ)⟩
  Clamp ⟨sqrtFn averaged.x, sqrtFn averaged.y, sqrtFn averaged.z⟩ c_normalizedRange

/-- The sum of the first N values of a color sequence. -/
def sumColors (f : ℕ → Vec3f) : ℕ → Vec3f
  | 0 => ⟨0, 0, 0⟩
  | k + 1 => addV (sumColors f k) (f k)

/-- The per-pixel contract in the claim's words: the written value is the sum
of the N per-sample integrator results, divided by N, square-rooted per
channel, then clamped per channel to [0,1]. -/
def renderPixelSpec (cam : Camera) ( normalizeFn : Vec3f → Vec3f) (sqrtFn : ℚ → ℚ)
    (randFn : ℕ → ℚ × ℚ) (imageWidth imageHeight : ℚ)
    (samplesPerPixel rayBounceLimit : ℕ) (objs : List SceneObject) (px py : ℤ) : Vec3f :=
  let total := sumColors
    (fun i => samplePixelColor cam normalizeFn randFn imageWidth imageHeight rayBounceLimit
      objs px py i) samplesPerPixel
  Clamp ⟨sqrtFn (total.x / (samplesPerPixel : ℚ)), sqrtFn (total.y / (samplesPerPixel : ℚ)),
    sqrtFn (total.z / (samplesPerPixel : ℚ))⟩ c_normalizedRange

/-- Left folds of addV over an index range compute the running color sum. -/
theorem foldl_addV_eq_sumColors (f : ℕ → Vec3f) :
    ∀ (N : ℕ) (acc : Vec3f),
      (List.range N).foldl (fun a i => addV a (f i)) acc = addV acc (sumColors f N) := by
  intro N
  induction N with
  | zero =>
    intro acc
    obtain ⟨ax, ay, az⟩ := acc
    simp [sumColors, addV]
  | succ k ih =>
    intro acc
    rw [List.range_succ, List.foldl_append, List.foldl_cons, List.foldl_nil, ih]
    simp only [sumColors, addV, Vec3f.mk.injEq]
    refine ⟨by ring, by ring, by ring⟩

/-- Claim C7: the per-pixel loop accumulates samplesPerPixel integrator
results, each from a camera ray jittered by the sample's random offsets in both
axes and direction-normalized before the integrator runs (samplePixelColor),
and the value written for the pixel is the accumulated sum divided by the
sample count, square-rooted per channel, then clamped per channel to [0,1]. -/
theorem renderPixel_eq_spec (cam : Camera) ( normalizeFn : Vec3f → Vec3f) (sqrtFn : ℚ → ℚ)
    (randFn : ℕ → ℚ × ℚ) (imageWidth imageHeight : ℚ)
    (samplesPerPixel rayBounceLimit : ℕ) (objs : List SceneObject) (px py : ℤ) :
    renderPixel cam normalizeFn sqrtFn randFn imageWidth imageHeight samplesPerPixel
      rayBounceLimit objs px py =
    renderPixelSpec cam normalizeFn sqrtFn randFn imageWidth imageHeight samplesPerPixel
      rayBounceLimit objs px py := by
  simp only [renderPixel, renderPixelSpec]
  rw [foldl_addV_eq_sumColors
    (fun i => samplePixelColor cam normalizeFn randFn imageWidth imageHeight rayBounceLimit
      objs px py i) samplesPerPixel ⟨0, 0, 0⟩]
  simp [addV]

/-- The command line option table of main (main.cpp 111-121): each flag's long
name and its default value. -/
def cliOptions : List (String × String) :=
  [("width", "384"), ("height", "256"), ("output", "out.ppm"),
   ("samplesPerPixel", "100"), ("rayBounceLimit", "50")]

/-- The process exit path of main (main.cpp 215-220): 0 when writing the PPM
image succeeds, -1 when it fails. raytrace::WritePPMImage is repo code outside
the extracted sources; its outcome is abstracted as a boolean. -/
def mainExitCode (writeSucceeded : Bool) : ℤ :=
  if writeSucceeded then 0 else -1

/-- Claim C8: the program accepts the flags width, height, output,
samplesPerPixel and rayBounceLimit, each with a default value, and the process
exit code is 0 exactly when the image write succeeds and -1 exactly when it
fails. -/
theorem cli_flags_and_exit_codes :
    cliOptions.map Prod.fst =
      ["width", "height", "output", "samplesPerPixel", "rayBounceLimit"] ∧
    cliOptions.map Prod.snd = ["384", "256", "out.ppm", "100", "50"] ∧
    (∀ b : Bool, (mainExitCode b = 0 ↔ b = true) ∧ (mainExitCode b = -1 ↔ b = false)) := by
  refine ⟨rfl, rfl, ?_⟩
  intro b
  cases b <;> norm_num [mainExitCode]

/-- Observational equality of scene objects: the hit geometry and the
material's Scatter answer identically on every query. -/
def ObsEq (o₁ o₂ : SceneObject) : Prop :=
  (∀ r, o₁.roots r = o₂.roots r) ∧
  (∀ r t, o₁.pointAt r t = o₂.pointAt r t) ∧
  (∀ r t, o₁.normalAt r t = o₂.normalAt r t) ∧
  (∀ r p n, o₁.material.Scatter r p n = o₂.material.Scatter r p n)

/-- Observationally equal scene objects are equal values of the embedding. -/
theorem ObsEq.eq {o₁ o₂ : SceneObject} (h : ObsEq o₁ o₂) : o₁ = o₂ := by
  obtain ⟨r₁, p₁, n₁, m₁⟩ := o₁
  obtain ⟨r₂, p₂, n₂, m₂⟩ := o₂
  obtain ⟨s₁⟩ := m₁
  obtain ⟨s₂⟩ := m₂
  obtain ⟨hr, hp, hn, hm⟩ := h
  have e1 : r₁ = r₂ := funext hr
  have e2 : p₁ = p₂ := funext fun r => funext fun t => hp r t
  have e3 : n₁ = n₂ := funext fun r => funext fun t => hn r t
  have e4 : s₁ = s₂ := funext fun r => funext fun p => funext fun n => hm r p n
  subst e1; subst e2; subst e3; subst e4
  rfl

/-- Claim C10: ComputeRayColor is deterministic apart from its collaborators —
two invocations with the same ray, bounce budget and scene length whose Hit
geometry and Scatter calls answer with identical value streams return equal
colors. (The embedding is purely functional, mirroring that the C++ function
takes the scene by const reference and never writes it, so the scene collection
is unchanged by the call by construction.) -/
theorem computeRayColor_observational_determinism (s₁ s₂ : List SceneObject)
    (h : List.Forall₂ ObsEq s₁ s₂) (ray : Ray) (n : ℕ) :
    ComputeRayColor ray n s₁ = ComputeRayColor ray n s₂ := by
  have he : s₁ = s₂ := by
    induction h with
    | nil => rfl
    | cons ho ht ih => rw [ObsEq.eq ho, ih]
  rw [he]

/-- A scene object observationally equal to wObj, written as a syntactically
distinct definition (the material inlined). -/
def wObjCopy : SceneObject :=
  { roots := fun _ => [1]
    pointAt := fun _ _ => ⟨0, 0, 0⟩
    normalAt := fun _ _ => ⟨0, 0, 1⟩
    material := ⟨fun _ _ _ => some (⟨1/2, 1/2, 1/2⟩, ⟨⟨0, 0, 0⟩, ⟨0, 1, 0⟩⟩)⟩ }

/-- Witness for claim C10: the one-object scenes built from wObj and from its
observationally equal copy produce the same color. -/
theorem computeRayColor_observational_determinism_witness :
    ComputeRayColor wRay 3 [wObj] = ComputeRayColor wRay 3 [wObjCopy] := by
  refine computeRayColor_observational_determinism [wObj] [wObjCopy] ?_ wRay 3
  refine List.Forall₂.cons ?_ List.Forall₂.nil
  exact ⟨fun _ => rfl, fun _ _ => rfl, fun _ _ => rfl, fun _ _ _ => rfl⟩

/-- A bounded range of integer pairs, embedding gm::Vec2iRange (vec2iRange.h):
a minimum and a maximum bound. -/
structure Vec2iRange where
  m_min : ℤ × ℤ
  m_max : ℤ × ℤ

/-- The iterator increment of Vec2iRange::iterator::operator++ (vec2iRange.h
lines 122-139): advance x while x+1 < max.x, else wrap to min.x advancing y
while y+1 < max.y, else jump to the maximum (the end sentinel). -/
def Vec2iRange.increment (r : Vec2iRange) (cur : ℤ × ℤ) : ℤ × ℤ :=
  if cur.1 + 1 < r.m_max.1 then (cur.1 + 1, cur.2)
  else if cur.2 + 1 < r.m_max.2 then (r.m_min.1, cur.2 + 1)
  else r.m_max

/-- The iterator position after k increments from begin() (which starts at the
minimum bound). -/
def Vec2iRange.iterN (r : Vec2iRange) : ℕ → ℤ × ℤ
  | 0 => r.m_min
  | k + 1 => r.increment (r.iterN k)

/-- The range with the given minimum corner and positive extents W, H. -/
def Vec2iRange.ofSize (mn : ℤ × ℤ) (W H : ℕ) : Vec2iRange :=
  ⟨mn, (mn.1 + W, mn.2 + H)⟩

/-- Incrementing below a row boundary leaves the row number unchanged. -/
theorem mod_succ_of_lt {k W : ℕ} (h : k % W + 1 < W) : (k + 1) % W = k % W + 1 := by
  conv_lhs => rw [← Nat.div_add_mod k W]
  rw [Nat.add_assoc, Nat.mul_add_mod]
  exact Nat.mod_eq_of_lt h

/-- Incrementing below a row boundary keeps the quotient. -/
theorem div_succ_of_lt {k W : ℕ} (h : k % W + 1 < W) : (k + 1) / W = k / W := by
  conv_lhs => rw [← Nat.div_add_mod k W]
  rw [Nat.add_assoc, Nat.mul_add_div (by omega : 0 < W)]
  rw [Nat.div_eq_of_lt h, Nat.add_zero]

/-- Incrementing at a row boundary wraps the remainder to zero. -/
theorem mod_succ_wrap {k W : ℕ} (hW : 0 < W) (h : k % W + 1 = W) : (k + 1) % W = 0 := by
  conv_lhs => rw [← Nat.div_add_mod k W]
  rw [Nat.add_assoc, h, ← Nat.mul_succ]
  exact Nat.mul_mod_right W _

/-- Incrementing at a row boundary advances the quotient. -/
theorem div_succ_wrap {k W : ℕ} (hW : 0 < W) (h : k % W + 1 = W) : (k + 1) / W = k / W + 1 := by
  conv_lhs => rw [← Nat.div_add_mod k W]
  rw [Nat.add_assoc, h, ← Nat.mul_succ]
  exact Nat.mul_div_cancel_left _ hW

/-- The iterator position after k < W*H increments is the row-major cell k,
with x varying fastest. -/
theorem iterN_formula (mn : ℤ × ℤ) (W H : ℕ) (hW : 0 < W) (hH : 0 < H) :
    ∀ k : ℕ, k < W * H →
      (Vec2iRange.ofSize mn W H).iterN k = (mn.1 + (k % W : ℕ), mn.2 + (k / W : ℕ)) := by
  intro k
  induction k with
  | zero =>
    intro _
    simp [Vec2iRange.iterN, Vec2iRange.ofSize]
  | succ k ih =>
    intro hk1
    have hk : k < W * H := Nat.lt_of_succ_lt hk1
    have hmod : k % W < W := Nat.mod_lt k hW
    simp only [Vec2iRange.iterN]
    rw [ih hk]
    by_cases hc : k % W + 1 < W
    · simp only [Vec2iRange.increment, Vec2iRange.ofSize]
      rw [if_pos (by omega)]
      rw [mod_succ_of_lt hc, div_succ_of_lt hc]
      simp only [Prod.mk.injEq]
      constructor
      · push_cast
        ring
      · trivial
    · have hc2 : k % W + 1 = W := by omega
      have he : k + 1 = W * (k / W + 1) := by
        conv_lhs => rw [← Nat.div_add_mod k W]
        rw [Nat.add_assoc, hc2, ← Nat.mul_succ]
      have hrow : k / W + 1 < H := by
        rw [he] at hk1
        exact Nat.lt_of_mul_lt_mul_left hk1
      simp only [Vec2iRange.increment, Vec2iRange.ofSize]
      rw [if_neg (by omega), if_pos (by omega)]
      rw [mod_succ_wrap hW hc2, div_succ_wrap hW hc2]
      simp only [Prod.mk.injEq]
      constructor
      · push_cast
        ring
      · push_cast
        ring

/-- Claim C9: iterating a Vec2iRange with positive extents from begin() visits
exactly the integer pairs of the half-open box, each exactly once, in row-major
order with x varying fastest (conjuncts 1 and 4), never reaching the end
sentinel early (conjunct 2), and the iterator equals end() after exactly W * H
increments (conjunct 3). -/
theorem vec2iRange_iteration (mn : ℤ × ℤ) (W H : ℕ) (hW : 0 < W) (hH : 0 < H) :
    (∀ k : ℕ, k < W * H →
      (Vec2iRange.ofSize mn W H).iterN k = (mn.1 + (k % W : ℕ), mn.2 + (k / W : ℕ))) ∧
    (∀ k : ℕ, k < W * H →
      (Vec2iRange.ofSize mn W H).iterN k ≠ (Vec2iRange.ofSize mn W H).m_max) ∧
    (Vec2iRange.ofSize mn W H).iterN (W * H) = (Vec2iRange.ofSize mn W H).m_max ∧
    (∀ p : ℤ × ℤ, mn.1 ≤ p.1 → p.1 < mn.1 + W → mn.2 ≤ p.2 → p.2 < mn.2 + H →
      ∃! k : ℕ, k < W * H ∧ (Vec2iRange.ofSize mn W H).iterN k = p) := by
  refine ⟨iterN_formula mn W H hW hH, ?_, ?_, ?_⟩
  · intro k hk heq
    rw [iterN_formula mn W H hW hH k hk] at heq
    simp only [Vec2iRange.ofSize, Prod.mk.injEq] at heq
    have := Nat.mod_lt k hW
    omega
  · have hpos : 0 < W * H := Nat.mul_pos hW hH
    obtain ⟨m, hm⟩ : ∃ m, W * H = m + 1 := ⟨W * H - 1, by omega⟩
    have hsplit : m = W * (H - 1) + (W - 1) := by
      obtain ⟨h1, rfl⟩ : ∃ h1, H = h1 + 1 := ⟨H - 1, by omega⟩
      rw [Nat.mul_succ] at hm
      simp only [Nat.add_sub_cancel]
      generalize hq : W * h1 = q at hm ⊢
      omega
    have hmodm : m % W = W - 1 := by
      rw [hsplit, Nat.mul_add_mod]
      exact Nat.mod_eq_of_lt (by omega)
    have hdivm : m / W = H - 1 := by
      rw [hsplit, Nat.mul_add_div hW, Nat.div_eq_of_lt (by omega), Nat.add_zero]
    rw [hm]
    simp only [Vec2iRange.iterN]
    rw [iterN_formula mn W H hW hH m (by omega), hmodm, hdivm]
    simp only [Vec2iRange.increment, Vec2iRange.ofSize]
    rw [if_neg (by omega), if_neg (by omega)]
  · intro p h1 h2 h3 h4
    have hi : ((p.1 - mn.1).toNat : ℤ) = p.1 - mn.1 := Int.toNat_of_nonneg (by omega)
    have hj : ((p.2 - mn.2).toNat : ℤ) = p.2 - mn.2 := Int.toNat_of_nonneg (by omega)
    have hiW : (p.1 - mn.1).toNat < W := by omega
    have hjH : (p.2 - mn.2).toNat < H := by omega
    have hlt : (p.2 - mn.2).toNat * W + (p.1 - mn.1).toNat < W * H := by
      calc (p.2 - mn.2).toNat * W + (p.1 - mn.1).toNat
          < ((p.2 - mn.2).toNat + 1) * W := by
            rw [Nat.succ_mul]
            omega
        _ ≤ H * W := Nat.mul_le_mul_right W (by omega)
        _ = W * H := Nat.mul_comm H W
    have hmod2 : ((p.2 - mn.2).toNat * W + (p.1 - mn.1).toNat) % W = (p.1 - mn.1).toNat := by
      rw [Nat.mul_comm _ W, Nat.mul_add_mod]
      exact Nat.mod_eq_of_lt hiW
    have hdiv2 : ((p.2 - mn.2).toNat * W + (p.1 - mn.1).toNat) / W = (p.2 - mn.2).toNat := by
      rw [Nat.mul_comm _ W, Nat.mul_add_div hW, Nat.div_eq_of_lt hiW, Nat.add_zero]
    refine ⟨(p.2 - mn.2).toNat * W + (p.1 - mn.1).toNat, ⟨hlt, ?_⟩, ?_⟩
    · rw [iterN_formula mn W H hW hH _ hlt, hmod2, hdiv2]
      have e1 : mn.1 + ((p.1 - mn.1).toNat : ℤ) = p.1 := by omega
      have e2 : mn.2 + ((p.2 - mn.2).toNat : ℤ) = p.2 := by omega
      rw [e1, e2]
    · intro k hk2
      obtain ⟨hk, hke⟩ := hk2
      rw [iterN_formula mn W H hW hH k hk] at hke
      have c1 : mn.1 + ((k % W : ℕ) : ℤ) = p.1 := congrArg Prod.fst hke
      have c2 : mn.2 + ((k / W : ℕ) : ℤ) = p.2 := congrArg Prod.snd hke
      have hkm : k % W = (p.1 - mn.1).toNat := by omega
      have hkd : k / W = (p.2 - mn.2).toNat := by omega
      have hdm := Nat.div_add_mod k W
      rw [← hdm, hkm, hkd, Nat.mul_comm W _]

/-- Witness for claim C9 on the 2-by-2 range with minimum (0,0): the second
visited cell is (1,0) (x varies fastest), the third wraps to (0,1), and the
iterator reaches the end sentinel after exactly 4 increments. -/
theorem vec2iRange_iteration_witness :
    (Vec2iRange.ofSize (0, 0) 2 2).iterN 1 = (1, 0) ∧
    (Vec2iRange.ofSize (0, 0) 2 2).iterN 2 = (0, 1) ∧
    (Vec2iRange.ofSize (0, 0) 2 2).iterN 4 = (Vec2iRange.ofSize (0, 0) 2 2).m_max := by
  have h := vec2iRange_iteration (0, 0) 2 2 (by norm_num) (by norm_num)
  refine ⟨?_, ?_, ?_⟩
  · have h1 := h.1 1 (by norm_num)
    simpa using h1
  · have h2 := h.1 2 (by norm_num)
    simpa using h2
  · have h3 := h.2.2.1
    simpa using h3
